import Mathlib

/-!
Threaded matrix multiplication: embedding of `matrix-multiplication-threads.c`.

The C program multiplies two dense matrices twice: once with a plain triple
loop (`mat_mul_single`) and once with one POSIX thread per contiguous block
of output rows (`mat_mul_threads` / `worker_mul`).

Embedding conventions.

* `int` values are `Int`.  On a matrix with `A->r >= 1` every integer the
  multiplication code computes (the clamped thread count, `base`, `rem`,
  `cnt`, `rs`, the row bounds and the loop counters) lies between `0` and
  the largest matrix dimension, so no `int` operation overflows and no
  reduction modulo `2^32` is needed; C's `/` and `%` are `Int.tdiv` and
  `Int.tmod` (truncation towards zero) and fault on a zero divisor.
* `float` is an arbitrary type `α` with `0`, `+` and `*`; no algebraic law
  is assumed, so the order of every addition and multiplication is kept.
* A `Matrix` keeps the C fields `r`, `c`, `buf` and `row`.  `buf` is the one
  allocation that holds all elements; a `float*` into it is the offset
  from `buf`, so `row[i]` is the offset `mat_create` stored there, `i*c`.
  An access `p[k]` reads or writes `buf[p + k]`: it is a fault only when it
  leaves `buf` (or reads `row` outside its `r` entries), so an index past
  the end of a row lands in the next row, as it does in C.
* The three matrices a multiplication touches are distinct allocations
  (`main` creates each with its own `mat_create`); the memory `Mem` holds
  them, and the `A`, `B`, `C` pointers of the C code name its three fields.
* `malloc` and `pthread_create` are taken to succeed.  Threads are run one
  after the other, a whole `worker_mul` call at a time, in a chosen order.
-/

namespace MatMul

/-! ## Data model -/

/-- Run-time faults of the embedded code. -/
inductive Fault where
  | divByZero
  | outOfBounds
deriving DecidableEq

/-- The C `Matrix`: `r` rows, `c` columns, the element buffer `buf` and the row
pointers `row`, each the offset of a row's first element in `buf`. -/
structure Matrix (α : Type) where
  r : Int
  c : Int
  buf : List α
  row : List Int
deriving DecidableEq

/-- The C `mat_create` (lines 41-50): `r * c` elements of indeterminate content
`fill`, and `row[i] = buf + i * c` for `0 <= i < r`. -/
def mat_create {α : Type} (r c : Int) (fill : Nat → α) : Matrix α :=
  { r := r
    c := c
    buf := (List.range (r.toNat * c.toNat)).map fill
    row := (List.range r.toNat).map (fun (i : Nat) => (i : Int) * c) }

/-- The shape `mat_create(r, c)` gives a matrix: a buffer of `r * c` elements
and `r` row pointers, `row[i]` at offset `i * c`. -/
def Matrix.WF {α : Type} (M : Matrix α) : Prop :=
  0 ≤ M.r ∧ 0 ≤ M.c ∧ M.buf.length = M.r.toNat * M.c.toNat ∧
    M.row = (List.range M.r.toNat).map (fun (i : Nat) => (i : Int) * M.c)

instance {α : Type} (M : Matrix α) : Decidable M.WF :=
  inferInstanceAs (Decidable
    (0 ≤ M.r ∧ 0 ≤ M.c ∧ M.buf.length = M.r.toNat * M.c.toNat ∧
      M.row = (List.range M.r.toNat).map (fun (i : Nat) => (i : Int) * M.c)))

/-- The pointer load `M->row[i]`: the offset of row `i` in `buf`. -/
def Matrix.rowPtr {α : Type} (M : Matrix α) (i : Int) : Except Fault Int :=
  if 0 ≤ i then
    match M.row[i.toNat]? with
    | some p => .ok p
    | none => .error .outOfBounds
  else .error .outOfBounds

/-- The read `*(M->buf + p)`. -/
def Matrix.load {α : Type} (M : Matrix α) (p : Int) : Except Fault α :=
  if 0 ≤ p then
    match M.buf[p.toNat]? with
    | some v => .ok v
    | none => .error .outOfBounds
  else .error .outOfBounds

/-- The write `*(M->buf + p) = v`. -/
def Matrix.store {α : Type} (M : Matrix α) (p : Int) (v : α) : Except Fault (Matrix α) :=
  if 0 ≤ p ∧ p.toNat < M.buf.length then
    .ok { M with buf := M.buf.set p.toNat v }
  else .error .outOfBounds

/-- The read `M->row[i][k]`. -/
def Matrix.get {α : Type} (M : Matrix α) (i k : Int) : Except Fault α := do
  let p ← M.rowPtr i
  M.load (p + k)

/-- The memory of one multiplication: the operands `A`, `B` and the output `C`. -/
structure Mem (α : Type) where
  A : Matrix α
  B : Matrix α
  C : Matrix α
deriving DecidableEq

/-- The write `*(C->buf + p) = v`. -/
def Mem.storeC {α : Type} (m : Mem α) (p : Int) (v : α) : Except Fault (Mem α) := do
  let C ← m.C.store p v
  .ok { m with C := C }

/-- The C `Work` item.  Its `A`, `B`, `C` pointers are the fields of `Mem`. -/
structure Work where
  row_start : Int
  row_end : Int
deriving DecidableEq

/-! ## Loops -/

/-- Run `body i`, `body (i+1)`, ... for `n` iterations, stopping at a fault. -/
def forLoop {σ : Type} (body : Int → σ → Except Fault σ) : Nat → Int → σ → Except Fault σ
  | 0, _, s => .ok s
  | n + 1, i, s => do
    let s ← body i s
    forLoop body n (i + 1) s

/-- The C loop `for (int i = lo; i < hi; ++i) body`.  The bound `hi` is read
once: no loop body of this program writes to the bound of its loop. -/
def forRange {σ : Type} (lo hi : Int) (body : Int → σ → Except Fault σ) (s : σ) :
    Except Fault σ :=
  forLoop body (hi - lo).toNat lo s

/-! ## The multipliers -/

section Code
variable {α : Type} [Zero α] [Add α] [Mul α]

/-- The body of the `i` loop of `mat_mul_single` (lines 113-119). -/
def mat_mul_single_row (i : Int) (m : Mem α) : Except Fault (Mem α) := do
  -- float *c = C->row[i];
  let c ← m.C.rowPtr i
  -- for (int k = 0; k < B->c; ++k) c[k] = 0.0f;
  let m ← forRange 0 m.B.c (fun k m => m.storeC (c + k) 0) m
  -- for (int j = 0; j < A->c; ++j)
  forRange 0 m.A.c (fun j m => do
    -- const float aij = A->row[i][j];
    let aij ← m.A.get i j
    -- const float *bcol = &B->row[j][0];
    let bcol ← m.B.rowPtr j
    -- for (int k = 0; k < B->c; ++k) c[k] += aij * bcol[k];
    forRange 0 m.B.c (fun k m => do
      let ck ← m.C.load (c + k)
      let bk ← m.B.load (bcol + k)
      m.storeC (c + k) (ck + aij * bk)) m) m

/-- The C `mat_mul_single`: `for (int i = 0; i < A->r; ++i)`. -/
def mat_mul_single (m : Mem α) : Except Fault (Mem α) :=
  forRange 0 m.A.r mat_mul_single_row m

/-- The body of the `i` loop of `worker_mul` (lines 129-135). -/
def worker_mul_row (i : Int) (m : Mem α) : Except Fault (Mem α) := do
  -- float *c = C->row[i];
  let c ← m.C.rowPtr i
  -- for (int k = 0; k < B->c; ++k) c[k] = 0.0f;
  let m ← forRange 0 m.B.c (fun k m => m.storeC (c + k) 0) m
  -- for (int j = 0; j < A->c; ++j)
  forRange 0 m.A.c (fun j m => do
    -- const float aij = A->row[i][j];
    let aij ← m.A.get i j
    -- const float *brow = B->row[j];
    let brow ← m.B.rowPtr j
    -- for (int k = 0; k < B->c; ++k) c[k] += aij * brow[k];
    forRange 0 m.B.c (fun k m => do
      let ck ← m.C.load (c + k)
      let bk ← m.B.load (brow + k)
      m.storeC (c + k) (ck + aij * bk)) m) m

/-- The C `worker_mul`: `for (int i = w->row_start; i < w->row_end; ++i)`. -/
def worker_mul (w : Work) (m : Mem α) : Except Fault (Mem α) :=
  forRange w.row_start w.row_end worker_mul_row m

/-- Run `worker_mul` on each work item of `ws`, one whole call after the other. -/
def run_workers : List Work → Mem α → Except Fault (Mem α)
  | [], m => .ok m
  | w :: ws, m => do
    let m ← worker_mul w m
    run_workers ws m

end Code

/-- The clamp of `mat_mul_threads` (lines 141-142). -/
def clamp_thread_count (A_r thread_count : Int) : Int :=
  let thread_count := if thread_count < 1 then 1 else thread_count
  if thread_count > A_r then A_r else thread_count

/-- The body of the `t` loop of `mat_mul_threads` (lines 150-154): the state is
the running `rs` and the `works` filled so far. -/
def mat_mul_threads_step (base rem : Int) (t : Int) (s : Int × List Work) :
    Except Fault (Int × List Work) :=
  let rs := s.1
  let cnt := base + (if t < rem then 1 else 0)
  .ok (rs + cnt, s.2 ++ [{ row_start := rs, row_end := rs + cnt }])

/-- The work items `mat_mul_threads` builds for a matrix `A` of `A_r` rows
(lines 141-154). -/
def mat_mul_threads_works (A_r thread_count : Int) : Except Fault (List Work) := do
  let thread_count := clamp_thread_count A_r thread_count
  if thread_count = 0 then .error .divByZero
  else
    let base := A_r.tdiv thread_count
    let rem := A_r.tmod thread_count
    let s ← forRange 0 thread_count (mat_mul_threads_step base rem) (0, [])
    .ok s.2

/-- The C `mat_mul_threads`, its threads run in creation order. -/
def mat_mul_threads {α : Type} [Zero α] [Add α] [Mul α] (m : Mem α) (thread_count : Int) :
    Except Fault (Mem α) := do
  let works ← mat_mul_threads_works m.A.r thread_count
  run_workers works m

/-- The speedup lines of `main` (312-316) and `save_results` (183-189) over
exact rationals: `some (speedup, improvement)` when the division is done,
`none` when it is skipped. -/
def speedup_report (t_single t_multi : ℚ) : Option (ℚ × ℚ) :=
  if t_multi > 0 then
    let speedup := t_single / t_multi
    some (speedup, (speedup - 1) * 100)
  else none

/-! ## Specification-level definitions -/

/-- The precondition of both multipliers: three well-shaped matrices with
`A.c == B.r`, `C.r == A.r` and `C.c == B.c`. -/
def Mem.Pre {α : Type} (m : Mem α) : Prop :=
  m.A.WF ∧ m.B.WF ∧ m.C.WF ∧ m.A.c = m.B.r ∧ m.C.r = m.A.r ∧ m.C.c = m.B.c

instance {α : Type} (m : Mem α) : Decidable m.Pre :=
  inferInstanceAs (Decidable
    (m.A.WF ∧ m.B.WF ∧ m.C.WF ∧ m.A.c = m.B.r ∧ m.C.r = m.A.r ∧ m.C.c = m.B.c))

/-- Replace the content of `C`'s buffer: element `p` becomes `f p`. -/
def Mem.withBuf {α : Type} (m : Mem α) (f : Nat → α) : Mem α :=
  { m with C := { m.C with buf := (List.range m.C.buf.length).map f } }

/-- The content of `C`'s buffer as a function of the offset. -/
def Mem.cells {α : Type} [Zero α] (m : Mem α) (p : Nat) : α := m.C.buf.getD p 0

/-- The element `M->row[i][k]` of a well-shaped matrix, read at offset `i*c + k`
(`0` outside the buffer). -/
def Matrix.entry {α : Type} [Zero α] (M : Matrix α) (i k : Nat) : α :=
  M.buf.getD (i * M.c.toNat + k) 0

/-- The value of `c[k]` in row `i` after the first `j` rounds of the `j` loop:
`((0 + A[i][0]*B[0][k]) + A[i][1]*B[1][k]) + ...`. -/
def acc {α : Type} [Zero α] [Add α] [Mul α] (A B : Matrix α) (i k : Nat) : Nat → α
  | 0 => 0
  | j + 1 => acc A B i k j + A.entry i j * B.entry j k

/-- Element `(i, k)` of the product, accumulated over all of `A`'s columns. -/
def prod {α : Type} [Zero α] [Add α] [Mul α] (A B : Matrix α) (i k : Nat) : α :=
  acc A B i k A.c.toNat

/-- Replace every element `(t, k)` of `C` whose row `t` is selected by `P` with
`g t k`. -/
def Mem.withRows {α : Type} [Zero α] (m : Mem α) (P : Nat → Bool) (g : Nat → Nat → α) :
    Mem α :=
  m.withBuf (fun p =>
    if P (p / m.C.c.toNat) then g (p / m.C.c.toNat) (p % m.C.c.toNat) else m.cells p)

/-- Does the work item own row `t`, that is `row_start <= t < row_end`? -/
def Work.owns (w : Work) (t : Nat) : Bool :=
  decide (w.row_start ≤ (t : Int) ∧ (t : Int) < w.row_end)

/-- The ranges a call on a matrix of `r` rows may be given: an empty one, or one
inside `[0, r)`. -/
def Work.inside (w : Work) (r : Int) : Prop :=
  w.row_start < w.row_end → 0 ≤ w.row_start ∧ w.row_end ≤ r

/-- Closed form of the `rs` that work item `t` starts at. -/
def startOf (base rem : Int) (t : Nat) : Int := (t : Int) * base + min (t : Int) rem

/-- Closed form of work item `t` for the given `base` and `rem`. -/
def workOf (base rem : Int) (t : Nat) : Work :=
  { row_start := startOf base rem t
    row_end := startOf base rem t + (base + (if (t : Int) < rem then 1 else 0)) }

/-- Closed form of the work items for `r` rows and an effective thread count `n`. -/
def partitionOf (r n : Int) : List Work :=
  (List.range n.toNat).map (workOf (r / n) (r % n))

/-- The matrix `A = [[1,2,3],[4,5,6]]` of the 2x3 by 3x2 scenario. -/
def scenarioA : Matrix Int := { r := 2, c := 3, buf := [1, 2, 3, 4, 5, 6], row := [0, 3] }

/-- The matrix `B = [[7,8],[9,10],[11,12]]` of the 2x3 by 3x2 scenario. -/
def scenarioB : Matrix Int :=
  { r := 3, c := 2, buf := [7, 8, 9, 10, 11, 12], row := [0, 2, 4] }

/-- The 2x2 output matrix `[[a,b],[c,d]]`. -/
def scenarioC (a b c d : Int) : Matrix Int := { r := 2, c := 2, buf := [a, b, c, d], row := [0, 2] }

/-- The memory of the scenario, the output matrix holding `a b c d`. -/
def scenarioMem (a b c d : Int) : Mem Int :=
  { A := scenarioA, B := scenarioB, C := scenarioC a b c d }

/-- A memory whose `A` and `C` have no rows: `A` is 0x3, `B` is 3x2, `C` is 0x2. -/
def emptyMem : Mem Int :=
  { A := { r := 0, c := 3, buf := [], row := [] }, B := scenarioB,
    C := { r := 0, c := 2, buf := [], row := [] } }

theorem ok_bind {ε β γ : Type} (a : β) (f : β → Except ε γ) : (Except.ok a >>= f) = f a := rfl

theorem forLoop_inv {σ : Type} (body : Int → σ → Except Fault σ) (Inv : Nat → σ → Prop) :
    ∀ (n : Nat) (lo : Int) (s : σ), Inv 0 s →
      (∀ k t, k < n → Inv k t → ∃ t', body (lo + k) t = .ok t' ∧ Inv (k + 1) t') →
      ∃ s', forLoop body n lo s = .ok s' ∧ Inv n s' := by
  intro n
  induction n generalizing Inv with
  | zero => intro lo s h0 _; exact ⟨s, rfl, h0⟩
  | succ n ih =>
    intro lo s h0 hstep
    obtain ⟨s1, hb, h1⟩ := hstep 0 s (Nat.succ_pos n) h0
    have hb' : body lo s = .ok s1 := by simpa using hb
    obtain ⟨s2, hl, h2⟩ := ih (fun k t => Inv (k + 1) t) (lo + 1) s1 h1 (by
      intro k t hk hinv
      obtain ⟨t', ht, hi⟩ := hstep (k + 1) t (Nat.succ_lt_succ hk) hinv
      refine ⟨t', ?_, hi⟩
      have : lo + 1 + (k : Int) = lo + ((k + 1 : Nat) : Int) := by push_cast; ring
      rw [this]; exact ht)
    exact ⟨s2, by simp [forLoop, hb', bind, Except.bind, hl], h2⟩

theorem forLoop_eq {σ : Type} (body : Int → σ → Except Fault σ) (F : Nat → σ) (n : Nat)
    (lo : Int) (s s' : σ) (h0 : s = F 0) (hn : s' = F n)
    (hstep : ∀ k, k < n → body (lo + k) (F k) = .ok (F (k + 1))) :
    forLoop body n lo s = .ok s' := by
  obtain ⟨t, ht, hinv⟩ := forLoop_inv body (fun k u => u = F k) n lo s h0 (by
    intro k u hk hu
    subst hu
    exact ⟨_, hstep k hk, rfl⟩)
  rw [ht, hinv, hn]

/-! ## Memory access lemmas -/

section Access
variable {α : Type}

theorem Matrix.rowPtr_ok (M : Matrix α) (i : Nat) (p : Int) (h : M.row[i]? = some p) :
    M.rowPtr (i : Int) = .ok p := by
  simp [Matrix.rowPtr, h]

theorem Matrix.load_ok (M : Matrix α) (p : Nat) (v : α) (h : M.buf[p]? = some v) :
    M.load (p : Int) = .ok v := by
  simp [Matrix.load, h]

theorem Matrix.WF.row_some {M : Matrix α} (h : M.WF) (i : Nat) (hi : i < M.r.toNat) :
    M.row[i]? = some (((i * M.c.toNat : Nat)) : Int) := by
  obtain ⟨_, hc, _, hrow⟩ := h
  rw [hrow, List.getElem?_map, List.getElem?_range hi]
  simp [Int.toNat_of_nonneg hc]

theorem mat_create_WF (r c : Int) (fill : Nat → α) (hr : 0 ≤ r) (hc : 0 ≤ c) :
    (mat_create r c fill).WF := by
  refine ⟨hr, hc, ?_, rfl⟩
  simp [mat_create]

theorem Matrix.WF.cell_lt {M : Matrix α} (h : M.WF) (i k : Nat) (hi : i < M.r.toNat)
    (hk : k ≤ M.c.toNat) : i * M.c.toNat + k ≤ M.buf.length := by
  rw [h.2.2.1]
  calc i * M.c.toNat + k ≤ i * M.c.toNat + M.c.toNat := Nat.add_le_add_left hk _
    _ = (i + 1) * M.c.toNat := (Nat.succ_mul _ _).symm
    _ ≤ M.r.toNat * M.c.toNat := Nat.mul_le_mul_right _ hi

theorem Mem.withBuf_get (m : Mem α) (f : Nat → α) (p : Nat) :
    (m.withBuf f).C.buf[p]? = if p < m.C.buf.length then some (f p) else none := by
  simp only [Mem.withBuf, List.getElem?_map]
  by_cases hp : p < m.C.buf.length
  · rw [List.getElem?_range hp]; simp [hp]
  · have : (List.range m.C.buf.length)[p]? = none := by simp; omega
    simp [this, hp]

theorem Mem.withBuf_length (m : Mem α) (f : Nat → α) :
    (m.withBuf f).C.buf.length = m.C.buf.length := by
  simp [Mem.withBuf]

theorem Mem.ext_buf (m m' : Mem α) (hA : m'.A = m.A) (hB : m'.B = m.B) (hr : m'.C.r = m.C.r)
    (hc : m'.C.c = m.C.c) (hrow : m'.C.row = m.C.row)
    (hbuf : ∀ p : Nat, m'.C.buf[p]? = m.C.buf[p]?) : m' = m := by
  obtain ⟨A, B, ⟨r, c, buf, row⟩⟩ := m
  obtain ⟨A', B', ⟨r', c', buf', row'⟩⟩ := m'
  simp only at hA hB hr hc hrow hbuf
  subst hA hB hr hc hrow
  have := List.ext_getElem? hbuf
  subst this
  rfl

theorem Mem.withBuf_congr (m : Mem α) (f g : Nat → α)
    (h : ∀ p, p < m.C.buf.length → f p = g p) : m.withBuf f = m.withBuf g := by
  apply Mem.ext_buf <;> try rfl
  intro p
  rw [Mem.withBuf_get, Mem.withBuf_get]
  by_cases hp : p < m.C.buf.length
  · simp [hp, h p hp]
  · simp [hp]

theorem Mem.withBuf_withBuf (m : Mem α) (f g : Nat → α) :
    (m.withBuf f).withBuf g = m.withBuf g := by
  apply Mem.ext_buf <;> try rfl
  intro p
  rw [Mem.withBuf_get, Mem.withBuf_get, Mem.withBuf_length]

theorem Mem.withBuf_cells [Zero α] (m : Mem α) : m.withBuf m.cells = m := by
  apply Mem.ext_buf <;> try rfl
  intro p
  rw [Mem.withBuf_get]
  by_cases hp : p < m.C.buf.length
  · simp [hp, Mem.cells, List.getD_eq_getElem?_getD, List.getElem?_eq_getElem hp]
  · have : m.C.buf[p]? = none := by simp; omega
    simp [hp, this]

theorem Mem.loadC_withBuf (m : Mem α) (f : Nat → α) (p : Nat) (hp : p < m.C.buf.length) :
    (m.withBuf f).C.load (p : Int) = .ok (f p) := by
  apply Matrix.load_ok
  rw [Mem.withBuf_get, if_pos hp]

theorem Mem.storeC_withBuf (m : Mem α) (f : Nat → α) (p : Nat) (v : α)
    (hp : p < m.C.buf.length) :
    (m.withBuf f).storeC (p : Int) v = .ok (m.withBuf (Function.update f p v)) := by
  have hlen : p < (m.withBuf f).C.buf.length := by rw [Mem.withBuf_length]; exact hp
  simp only [Mem.storeC, Matrix.store, Int.toNat_ofNat, Int.ofNat_nonneg, true_and, hlen,
    if_true, ok_bind]
  congr 1
  apply Mem.ext_buf <;> try rfl
  intro q
  show ((m.withBuf f).C.buf.set p v)[q]? = _
  rw [List.getElem?_set, Mem.withBuf_get, Mem.withBuf_get, Mem.withBuf_length]
  by_cases hq : p = q
  · subst hq; simp [hp]
  · have hq' : ¬ q = p := fun h => hq h.symm
    simp [hq, Function.update, hq']

theorem Matrix.get_ok [Zero α] (M : Matrix α) (h : M.WF) (i k : Nat) (hi : i < M.r.toNat)
    (hk : k < M.c.toNat) : M.get (i : Int) (k : Int) = .ok (M.entry i k) := by
  have hlt : i * M.c.toNat + k < M.buf.length := h.cell_lt i (k + 1) hi hk
  simp only [Matrix.get, Matrix.rowPtr_ok M i _ (h.row_some i hi), ok_bind]
  rw [← Nat.cast_add]
  apply Matrix.load_ok
  simp [Matrix.entry, List.getD_eq_getElem?_getD, List.getElem?_eq_getElem hlt]

theorem Mem.WF_row_lt (m : Mem α) (hC : m.C.WF) (p : Nat) (hp : p < m.C.buf.length) :
    0 < m.C.c.toNat ∧ p / m.C.c.toNat < m.C.r.toNat := by
  rw [hC.2.2.1] at hp
  have hn : 0 < m.C.c.toNat := by
    rcases Nat.eq_zero_or_pos m.C.c.toNat with h | h
    · rw [h, Nat.mul_zero] at hp; omega
    · exact h
  refine ⟨hn, Nat.div_lt_of_lt_mul ?_⟩
  rw [Nat.mul_comm]; exact hp

end Access

/-! ## A loop that rewrites `n` consecutive elements of `C` one by one -/

section RowLoop
variable {α : Type}

theorem rowLoop_ok (g : Nat → α → α) (body : Int → Mem α → Except Fault (Mem α))
    (m : Mem α) (f : Nat → α) (off n : Nat)
    (hbody : ∀ (k : Nat) (f' : Nat → α), k < n →
      body (k : Int) (m.withBuf f')
        = .ok (m.withBuf (Function.update f' (off + k) (g k (f' (off + k)))))) :
    forLoop body n 0 (m.withBuf f)
      = .ok (m.withBuf (fun p => if off ≤ p ∧ p < off + n then g (p - off) (f p) else f p)) := by
  apply forLoop_eq body
    (fun k => m.withBuf (fun p => if off ≤ p ∧ p < off + k then g (p - off) (f p) else f p))
  · congr 1
    funext p
    have : ¬ (off ≤ p ∧ p < off) := by omega
    simp [this]
  · rfl
  · intro k hk
    rw [Int.zero_add, hbody k _ hk]
    congr 2
    funext p
    by_cases hp : p = off + k
    · subst hp
      have h1 : ¬ (off ≤ off + k ∧ off + k < off + k) := by omega
      have h2 : off ≤ off + k ∧ off + k < off + (k + 1) := by omega
      simp [Function.update, h1, h2]
    · by_cases hin : off ≤ p ∧ p < off + k
      · have h2 : off ≤ p ∧ p < off + (k + 1) := by omega
        simp [Function.update, hp, hin, h2]
      · have h2 : ¬ (off ≤ p ∧ p < off + (k + 1)) := by omega
        simp [Function.update, hp, hin, h2]

end RowLoop

/-! ## What one pass over a row computes -/

section ZeroLoop
variable {α : Type} [Zero α]

theorem zero_loop_ok (m : Mem α) (f : Nat → α) (off n : Nat) (hn : m.B.c.toNat = n)
    (hb : off + n ≤ m.C.buf.length) :
    forRange 0 (m.withBuf f).B.c (fun k s => s.storeC ((off : Int) + k) 0) (m.withBuf f)
      = .ok (m.withBuf (fun p => if off ≤ p ∧ p < off + n then 0 else f p)) := by
  have hcnt : ((m.withBuf f).B.c - 0).toNat = n := by simpa [Mem.withBuf] using hn
  rw [forRange, hcnt]
  apply rowLoop_ok (fun _ _ => (0 : α)) _ m f off n
  intro k f' hk
  rw [← Nat.cast_add, Mem.storeC_withBuf m f' (off + k) 0 (by omega)]

end ZeroLoop

section Kernel
variable {α : Type} [Zero α] [Add α] [Mul α]

theorem acc_eq_foldl (A B : Matrix α) (i k n : Nat) :
    acc A B i k n = (List.range n).foldl (fun s j => s + A.entry i j * B.entry j k) 0 := by
  induction n with
  | zero => rfl
  | succ n ih => simp [acc, List.range_succ, ih]

theorem acc_loop_ok (m : Mem α) (f : Nat → α) (off n bo : Nat) (aij : α)
    (hn : m.B.c.toNat = n) (hb : off + n ≤ m.C.buf.length) (hbo : bo + n ≤ m.B.buf.length) :
    forRange 0 (m.withBuf f).B.c (fun k s => do
        let ck ← s.C.load ((off : Int) + k)
        let bk ← s.B.load ((bo : Int) + k)
        s.storeC ((off : Int) + k) (ck + aij * bk)) (m.withBuf f)
      = .ok (m.withBuf (fun p =>
          if off ≤ p ∧ p < off + n then f p + aij * m.B.buf.getD (bo + (p - off)) 0
          else f p)) := by
  have hcnt : ((m.withBuf f).B.c - 0).toNat = n := by simpa [Mem.withBuf] using hn
  rw [forRange, hcnt]
  apply rowLoop_ok (fun k x => x + aij * m.B.buf.getD (bo + k) 0) _ m f off n
  intro k f' hk
  have hbk : (m.withBuf f').B.load ((bo + k : Nat) : Int) = .ok (m.B.buf.getD (bo + k) 0) := by
    apply Matrix.load_ok
    show m.B.buf[bo + k]? = _
    simp [List.getD_eq_getElem?_getD,
      List.getElem?_eq_getElem (show bo + k < m.B.buf.length by omega)]
  simp only [← Nat.cast_add]
  rw [Mem.loadC_withBuf m f' (off + k) (by omega), ok_bind, hbk, ok_bind,
    Mem.storeC_withBuf m f' (off + k) _ (by omega)]

theorem worker_mul_row_ok (m : Mem α) (f : Nat → α) (i off : Nat) (hA : m.A.WF) (hB : m.B.WF)
    (hAB : m.A.c = m.B.r) (hi : i < m.A.r.toNat) (hrow : m.C.row[i]? = some (off : Int))
    (hb : off + m.B.c.toNat ≤ m.C.buf.length) :
    worker_mul_row (i : Int) (m.withBuf f)
      = .ok (m.withBuf (fun p =>
          if off ≤ p ∧ p < off + m.B.c.toNat then prod m.A m.B i (p - off) else f p)) := by
  have hrow' : (m.withBuf f).C.row[i]? = some (off : Int) := hrow
  unfold worker_mul_row
  simp only [Matrix.rowPtr_ok _ i _ hrow', ok_bind]
  rw [zero_loop_ok m f off _ rfl hb]
  simp only [ok_bind]
  have hcnt : ((m.withBuf (fun p => if off ≤ p ∧ p < off + m.B.c.toNat then 0 else f p)).A.c
      - 0).toNat = m.A.c.toNat := by simp [Mem.withBuf]
  rw [forRange, hcnt]
  apply forLoop_eq _ (fun j => m.withBuf (fun p =>
    if off ≤ p ∧ p < off + m.B.c.toNat then acc m.A m.B i (p - off) j else f p))
  · simp [acc]
  · rfl
  · intro j hj
    have hjB : j < m.B.r.toNat := by rw [← hAB]; exact hj
    have hget : ∀ g : Nat → α, (m.withBuf g).A.get (i : Int) (j : Int)
        = .ok (m.A.entry i j) := fun _ => Matrix.get_ok m.A hA i j hi hj
    have hptr : ∀ g : Nat → α, (m.withBuf g).B.rowPtr (j : Int)
        = .ok (((j * m.B.c.toNat : Nat)) : Int) :=
      fun _ => Matrix.rowPtr_ok m.B j _ (hB.row_some j hjB)
    simp only [Int.zero_add, hget, hptr, ok_bind]
    rw [acc_loop_ok m _ off _ (j * m.B.c.toNat) (m.A.entry i j) rfl hb
      (hB.cell_lt j _ hjB (le_refl _))]
    congr 2
    funext p
    by_cases hin : off ≤ p ∧ p < off + m.B.c.toNat
    · simp [hin, acc, Matrix.entry]
    · simp [hin]

theorem mat_mul_single_row_eq (i : Int) (m : Mem α) :
    mat_mul_single_row i m = worker_mul_row i m := rfl

end Kernel

/-! ## Whole rows -/

theorem cell_row (n i p : Nat) (hn : 0 < n) : (i * n ≤ p ∧ p < i * n + n) ↔ p / n = i := by
  constructor
  · rintro ⟨h1, h2⟩
    exact Nat.div_eq_of_lt_le h1 (by rw [Nat.succ_mul]; exact h2)
  · intro h
    subst h
    have h1 := Nat.div_add_mod p n
    have h2 := Nat.mod_lt p hn
    have h3 : p / n * n = n * (p / n) := Nat.mul_comm _ _
    omega

theorem cell_col (n p : Nat) : p - p / n * n = p % n := by
  have h1 := Nat.div_add_mod p n
  have h3 : p / n * n = n * (p / n) := Nat.mul_comm _ _
  omega

section Rows
variable {α : Type} [Zero α]

theorem Mem.withBuf_cells_apply (m : Mem α) (f : Nat → α) (p : Nat) (hp : p < m.C.buf.length) :
    (m.withBuf f).cells p = f p := by
  simp [Mem.cells, List.getD_eq_getElem?_getD, Mem.withBuf_get, hp]

theorem Mem.withRows_congr (m : Mem α) (hC : m.C.WF) (P Q : Nat → Bool) (g : Nat → Nat → α)
    (h : ∀ t, t < m.C.r.toNat → P t = Q t) : m.withRows P g = m.withRows Q g := by
  apply Mem.withBuf_congr
  intro p hp
  simp only [h _ (Mem.WF_row_lt m hC p hp).2]

theorem Mem.withRows_false (m : Mem α) (g : Nat → Nat → α) :
    m.withRows (fun _ => false) g = m := by
  have : m.withRows (fun _ => false) g = m.withBuf m.cells := by
    apply Mem.withBuf_congr
    intro p _
    simp
  rw [this, Mem.withBuf_cells]

theorem Mem.withRows_withRows (m : Mem α) (P Q : Nat → Bool) (g : Nat → Nat → α) :
    (m.withRows P g).withRows Q g = m.withRows (fun t => P t || Q t) g := by
  show ((m.withRows P g).withBuf _) = _
  unfold Mem.withRows
  rw [Mem.withBuf_withBuf]
  apply Mem.withBuf_congr
  intro p hp
  have hc : (m.withBuf (fun p =>
      if P (p / m.C.c.toNat) = true then g (p / m.C.c.toNat) (p % m.C.c.toNat)
      else m.cells p)).C.c = m.C.c := rfl
  rw [hc, Mem.withBuf_cells_apply m _ p hp]
  by_cases hP : P (p / m.C.c.toNat) = true <;> by_cases hQ : Q (p / m.C.c.toNat) = true <;>
    simp [hP, hQ]

theorem Mem.withRows_pre (m : Mem α) (hpre : m.Pre) (P : Nat → Bool) (g : Nat → Nat → α) :
    (m.withRows P g).Pre := by
  obtain ⟨hA, hB, hC, hAB, hCA, hCB⟩ := hpre
  refine ⟨hA, hB, ?_, hAB, hCA, hCB⟩
  refine ⟨hC.1, hC.2.1, ?_, hC.2.2.2⟩
  show (m.withBuf _).C.buf.length = _
  rw [Mem.withBuf_length]
  exact hC.2.2.1

theorem Mem.withRows_get_own (m : Mem α) (hC : m.C.WF) (P : Nat → Bool) (g : Nat → Nat → α)
    (t k : Nat) (ht : t < m.C.r.toNat) (hk : k < m.C.c.toNat) (hP : P t = true) :
    (m.withRows P g).C.get (t : Int) (k : Int) = .ok (g t k) := by
  have hlt : t * m.C.c.toNat + k < m.C.buf.length := hC.cell_lt t (k + 1) ht hk
  have hrow : (m.withRows P g).C.row[t]? = some (((t * m.C.c.toNat : Nat)) : Int) :=
    hC.row_some t ht
  have hdiv : (t * m.C.c.toNat + k) / m.C.c.toNat = t :=
    (cell_row m.C.c.toNat t _ (by omega)).mp ⟨by omega, by omega⟩
  have hmod : (t * m.C.c.toNat + k) % m.C.c.toNat = k := by
    rw [← cell_col, hdiv]; omega
  simp only [Matrix.get, Matrix.rowPtr_ok _ t _ hrow, ok_bind]
  rw [← Nat.cast_add]
  apply Matrix.load_ok
  show (m.withBuf _).C.buf[_]? = _
  rw [Mem.withBuf_get, if_pos hlt, hdiv, hmod, if_pos hP]

end Rows

section Multipliers
variable {α : Type} [Zero α] [Add α] [Mul α]

theorem worker_mul_ok (m : Mem α) (hpre : m.Pre) (w : Work) (hw : w.inside m.C.r) :
    worker_mul w m = .ok (m.withRows w.owns (prod m.A m.B)) := by
  obtain ⟨hA, hB, hC, hAB, hCA, hCB⟩ := hpre
  unfold worker_mul forRange
  by_cases hlt : w.row_start < w.row_end
  · obtain ⟨h0, hr⟩ := hw hlt
    obtain ⟨a, ha⟩ := Int.eq_ofNat_of_zero_le h0
    apply forLoop_eq _
      (fun k => m.withRows (fun t => decide (a ≤ t ∧ t < a + k)) (prod m.A m.B))
    · exact (Mem.withRows_false m _).symm.trans (Mem.withRows_congr m hC _ _ _ (by
        intro t _
        simp))
    · apply Mem.withRows_congr m hC
      intro t _
      simp only [Work.owns, ha]
      congr 1
      apply propext
      constructor <;> intro h <;> omega
    · intro k hk
      have hidx : w.row_start + (k : Int) = ((a + k : Nat) : Int) := by rw [ha]; push_cast; rfl
      have hak : a + k < m.C.r.toNat := by omega
      have hcn : m.B.c.toNat = m.C.c.toNat := by rw [hCB]
      rw [hidx]
      show worker_mul_row _ (m.withBuf _) = _
      rw [worker_mul_row_ok m _ (a + k) ((a + k) * m.C.c.toNat) hA hB hAB (by rw [← hCA]; exact hak)
        (hC.row_some (a + k) hak) (by rw [hcn]; exact hC.cell_lt (a + k) _ hak (le_refl _))]
      congr 1
      apply Mem.withBuf_congr
      intro p hp
      obtain ⟨hn, _⟩ := Mem.WF_row_lt m hC p hp
      rw [hcn]
      by_cases hrowp : p / m.C.c.toNat = a + k
      · have hin := (cell_row m.C.c.toNat (a + k) p hn).mpr hrowp
        have hcol : p - (a + k) * m.C.c.toNat = p % m.C.c.toNat := by
          rw [← hrowp]; exact cell_col _ _
        have hdec : (a ≤ a + k ∧ a + k < a + (k + 1)) := by omega
        simp only [hin, and_self, if_true, hcol, hrowp, hdec, decide_True]
      · have hin : ¬ ((a + k) * m.C.c.toNat ≤ p ∧ p < (a + k) * m.C.c.toNat + m.C.c.toNat) :=
          fun h => hrowp ((cell_row m.C.c.toNat (a + k) p hn).mp h)
        have hdec : (a ≤ p / m.C.c.toNat ∧ p / m.C.c.toNat < a + (k + 1)) ↔
            (a ≤ p / m.C.c.toNat ∧ p / m.C.c.toNat < a + k) := by omega
        simp only [hin, if_false, hdec]
  · have hz : (w.row_end - w.row_start).toNat = 0 := by omega
    rw [hz]
    simp only [forLoop]
    congr 1
    refine (Mem.withRows_false m _).symm.trans (Mem.withRows_congr m hC _ _ _ ?_)
    intro t _
    simp only [Work.owns]
    symm
    apply decide_eq_false
    omega

theorem mat_mul_single_eq_worker (m : Mem α) :
    mat_mul_single m = worker_mul { row_start := 0, row_end := m.A.r } m := rfl

theorem mat_mul_single_ok (m : Mem α) (hpre : m.Pre) :
    mat_mul_single m = .ok (m.withRows (fun _ => true) (prod m.A m.B)) := by
  rw [mat_mul_single_eq_worker, worker_mul_ok m hpre _ (by
    intro _
    exact ⟨le_refl _, le_of_eq hpre.2.2.2.2.1.symm⟩)]
  congr 1
  apply Mem.withRows_congr m hpre.2.2.1
  intro t ht
  have h2 := hpre.2.2.2.2.1
  have : (t : Int) < m.A.r := by omega
  simp [Work.owns, this]

theorem run_workers_ok (ws : List Work) :
    ∀ (m : Mem α), m.Pre → (∀ w ∈ ws, w.inside m.C.r) →
      run_workers ws m
        = .ok (m.withRows (fun t => ws.any (fun w => w.owns t)) (prod m.A m.B)) := by
  induction ws with
  | nil =>
    intro m _ _
    simp only [run_workers, List.any_nil]
    rw [Mem.withRows_false]
  | cons w ws ih =>
    intro m hpre hws
    simp only [run_workers]
    rw [worker_mul_ok m hpre w (hws w (List.mem_cons_self _ _)), ok_bind]
    rw [ih _ (Mem.withRows_pre m hpre _ _) (fun v hv => hws v (List.mem_cons_of_mem _ hv))]
    show Except.ok ((m.withRows _ (prod m.A m.B)).withRows _ (prod m.A m.B)) = _
    rw [Mem.withRows_withRows]
    congr 1

end Multipliers

/-! ## The row partition -/

theorem startOf_zero (base rem : Int) (hrem : 0 ≤ rem) : startOf base rem 0 = 0 := by
  simp [startOf, hrem]

theorem startOf_succ (base rem : Int) (t : Nat) :
    startOf base rem (t + 1) = startOf base rem t + (base + (if (t : Int) < rem then 1 else 0)) := by
  simp only [startOf]
  have h : ((t + 1 : Nat) : Int) * base = (t : Int) * base + base := by push_cast; ring
  rw [h]
  split_ifs with hlt
  · rw [min_eq_left (by push_cast; omega), min_eq_left (le_of_lt hlt)]
    push_cast; ring
  · rw [min_eq_right (by push_cast; omega), min_eq_right (by omega)]
    ring

theorem workOf_end (base rem : Int) (t : Nat) :
    (workOf base rem t).row_end = startOf base rem (t + 1) := by
  rw [startOf_succ]; rfl

theorem startOf_mono_succ (base rem : Int) (hb : 0 ≤ base) (t : Nat) :
    startOf base rem t ≤ startOf base rem (t + 1) := by
  rw [startOf_succ]
  split_ifs <;> omega

theorem startOf_mono (base rem : Int) (hb : 0 ≤ base) (a b : Nat) (hab : a ≤ b) :
    startOf base rem a ≤ startOf base rem b := by
  induction b with
  | zero =>
    have : a = 0 := by omega
    subst this; exact le_refl _
  | succ b ih =>
    by_cases h : a = b + 1
    · subst h; exact le_refl _
    · exact le_trans (ih (by omega)) (startOf_mono_succ base rem hb b)

theorem startOf_cover (base rem : Int) (hrem : 0 ≤ rem) (k : Nat) :
    ∀ i : Int, 0 ≤ i → i < startOf base rem k →
      ∃ t, t < k ∧ startOf base rem t ≤ i ∧ i < startOf base rem (t + 1) := by
  induction k with
  | zero =>
    intro i h0 h1
    rw [startOf_zero base rem hrem] at h1
    omega
  | succ k ih =>
    intro i h0 h1
    by_cases h : i < startOf base rem k
    · obtain ⟨t, ht, h2, h3⟩ := ih i h0 h
      exact ⟨t, by omega, h2, h3⟩
    · exact ⟨k, by omega, by omega, h1⟩

theorem clamp_thread_count_bounds (A_r thread_count : Int) (hr : 1 ≤ A_r) :
    1 ≤ clamp_thread_count A_r thread_count ∧ clamp_thread_count A_r thread_count ≤ A_r := by
  unfold clamp_thread_count
  simp only
  split_ifs <;> omega

theorem clamp_thread_count_eq (A_r thread_count : Int) (hr : 1 ≤ A_r) :
    clamp_thread_count A_r thread_count = min (max thread_count 1) A_r := by
  unfold clamp_thread_count
  simp only
  split_ifs <;> omega

theorem startOf_total (r n : Int) (hn : 1 ≤ n) :
    startOf (r / n) (r % n) n.toNat = r := by
  have h1 : r % n < n := Int.emod_lt_of_pos r (by omega)
  have h2 : 0 ≤ r % n := Int.emod_nonneg r (by omega)
  have h3 : n * (r / n) + r % n = r := Int.ediv_add_emod r n
  simp only [startOf]
  rw [Int.toNat_of_nonneg (by omega), min_eq_right (le_of_lt h1)]
  exact h3

theorem mat_mul_threads_works_ok (A_r thread_count : Int) (hr : 1 ≤ A_r) :
    mat_mul_threads_works A_r thread_count =
      .ok ((List.range (clamp_thread_count A_r thread_count).toNat).map
        (workOf (A_r / clamp_thread_count A_r thread_count)
          (A_r % clamp_thread_count A_r thread_count))) := by
  obtain ⟨h1, h2⟩ := clamp_thread_count_bounds A_r thread_count hr
  unfold mat_mul_threads_works
  simp only
  rw [if_neg (by omega), Int.tdiv_eq_ediv (by omega) (by omega),
    Int.tmod_eq_emod (by omega) (by omega)]
  generalize clamp_thread_count A_r thread_count = n at *
  have hrem : 0 ≤ A_r % n := Int.emod_nonneg A_r (by omega)
  have hloop : forRange 0 n (mat_mul_threads_step (A_r / n) (A_r % n)) (0, []) =
      .ok (startOf (A_r / n) (A_r % n) n.toNat,
        (List.range n.toNat).map (workOf (A_r / n) (A_r % n))) := by
    unfold forRange
    rw [Int.sub_zero]
    apply forLoop_eq _ (fun k => (startOf (A_r / n) (A_r % n) k,
      (List.range k).map (workOf (A_r / n) (A_r % n))))
    · simp [startOf_zero _ _ hrem]
    · rfl
    · intro k _
      simp only [mat_mul_threads_step, Int.zero_add, List.range_succ, List.map_append,
        List.map_cons, List.map_nil, startOf_succ]
      rfl
  rw [hloop, ok_bind]

/-! ## Facts about the work items of a positive row count -/

theorem partitionOf_get (r n : Int) (t : Nat) (w : Work) :
    (partitionOf r n)[t]? = some w ↔ t < n.toNat ∧ w = workOf (r / n) (r % n) t := by
  unfold partitionOf
  rw [List.getElem?_map]
  by_cases ht : t < n.toNat
  · rw [List.getElem?_range ht]
    simp only [Option.map_some', Option.some.injEq, ht, true_and]
    exact eq_comm
  · have : (List.range n.toNat)[t]? = none := by simp; omega
    simp [this, ht]

theorem partitionOf_mem (r n : Int) (w : Work) :
    w ∈ partitionOf r n ↔ ∃ t, t < n.toNat ∧ w = workOf (r / n) (r % n) t := by
  unfold partitionOf
  simp only [List.mem_map, List.mem_range]
  constructor
  · rintro ⟨t, ht, h⟩; exact ⟨t, ht, h.symm⟩
  · rintro ⟨t, ht, h⟩; exact ⟨t, ht, h.symm⟩

theorem partitionOf_bounds (r n : Int) (hn : 1 ≤ n) (hr : 0 ≤ r) (t : Nat) (ht : t < n.toNat) :
    0 ≤ (workOf (r / n) (r % n) t).row_start ∧
    (workOf (r / n) (r % n) t).row_start ≤ (workOf (r / n) (r % n) t).row_end ∧
    (workOf (r / n) (r % n) t).row_end ≤ r := by
  have hb : 0 ≤ r / n := Int.ediv_nonneg hr (by omega)
  have hrem : 0 ≤ r % n := Int.emod_nonneg r (by omega)
  rw [workOf_end]
  refine ⟨?_, startOf_mono_succ _ _ hb t, ?_⟩
  · have := startOf_mono (r / n) (r % n) hb 0 t (Nat.zero_le _)
    rw [startOf_zero _ _ hrem] at this
    exact this
  · have := startOf_mono (r / n) (r % n) hb (t + 1) n.toNat (by omega)
    rw [startOf_total r n hn] at this
    exact this

theorem partitionOf_inside (r n : Int) (hn : 1 ≤ n) (hr : 0 ≤ r) (w : Work)
    (hw : w ∈ partitionOf r n) : w.inside r := by
  obtain ⟨t, ht, rfl⟩ := (partitionOf_mem r n w).mp hw
  intro _
  obtain ⟨h1, _, h3⟩ := partitionOf_bounds r n hn hr t ht
  exact ⟨h1, h3⟩

theorem partitionOf_cover (r n : Int) (hn : 1 ≤ n) (i : Int) (h0 : 0 ≤ i) (hi : i < r) :
    ∃ t, t < n.toNat ∧ (workOf (r / n) (r % n) t).row_start ≤ i ∧
      i < (workOf (r / n) (r % n) t).row_end := by
  have hrem : 0 ≤ r % n := Int.emod_nonneg r (by omega)
  obtain ⟨t, ht, h1, h2⟩ := startOf_cover (r / n) (r % n) hrem n.toNat i h0 (by
    rw [startOf_total r n hn]; exact hi)
  exact ⟨t, ht, h1, by rw [workOf_end]; exact h2⟩

theorem partitionOf_disjoint (r n : Int) (hr : 0 ≤ r) (hn : 1 ≤ n) (s t : Nat) (i : Int)
    (hs1 : (workOf (r / n) (r % n) s).row_start ≤ i) (hs2 : i < (workOf (r / n) (r % n) s).row_end)
    (ht1 : (workOf (r / n) (r % n) t).row_start ≤ i) (ht2 : i < (workOf (r / n) (r % n) t).row_end) :
    s = t := by
  have hb : 0 ≤ r / n := Int.ediv_nonneg hr (by omega)
  rw [workOf_end] at hs2 ht2
  have hs1' : startOf (r / n) (r % n) s ≤ i := hs1
  have ht1' : startOf (r / n) (r % n) t ≤ i := ht1
  by_contra hne
  rcases Nat.lt_or_gt_of_ne hne with h | h
  · have := startOf_mono (r / n) (r % n) hb (s + 1) t h
    omega
  · have := startOf_mono (r / n) (r % n) hb (t + 1) s h
    omega

theorem partitionOf_any (r n : Int) (hn : 1 ≤ n) (ws : List Work)
    (hperm : ws.Perm (partitionOf r n)) (t : Nat) (ht : (t : Int) < r) :
    ws.any (fun w => w.owns t) = true := by
  obtain ⟨s, hs, h1, h2⟩ := partitionOf_cover r n hn (t : Int) (Int.ofNat_nonneg t) ht
  rw [List.any_eq_true]
  refine ⟨workOf (r / n) (r % n) s, ?_, ?_⟩
  · exact hperm.mem_iff.mpr ((partitionOf_mem r n _).mpr ⟨s, hs, rfl⟩)
  · simp [Work.owns, h1, h2]

section AnyOrder
variable {α : Type} [Zero α] [Add α] [Mul α]

theorem run_workers_perm (m : Mem α) (hpre : m.Pre) (n : Int) (hn : 1 ≤ n) (ws : List Work)
    (hperm : ws.Perm (partitionOf m.A.r n)) :
    run_workers ws m = .ok (m.withRows (fun _ => true) (prod m.A m.B)) := by
  obtain ⟨hA, hB, hC, hAB, hCA, hCB⟩ := hpre
  rw [run_workers_ok ws m ⟨hA, hB, hC, hAB, hCA, hCB⟩ (by
    intro w hw
    rw [hCA]
    exact partitionOf_inside m.A.r n hn hA.1 w (hperm.mem_iff.mp hw))]
  congr 1
  apply Mem.withRows_congr m hC
  intro t ht
  apply partitionOf_any m.A.r n hn ws hperm t
  have h2 := hC.1
  omega

theorem mat_mul_threads_ok (m : Mem α) (hpre : m.Pre) (hr : 1 ≤ m.A.r) (thread_count : Int) :
    mat_mul_threads m thread_count = .ok (m.withRows (fun _ => true) (prod m.A m.B)) := by
  unfold mat_mul_threads
  rw [mat_mul_threads_works_ok m.A.r thread_count hr, ok_bind]
  exact run_workers_perm m hpre _ (clamp_thread_count_bounds m.A.r thread_count hr).1 _
    (List.Perm.refl _)

theorem mat_mul_threads_zero_rows (m : Mem α) (h : m.A.r = 0) (thread_count : Int) :
    clamp_thread_count m.A.r thread_count = 0 ∧
    mat_mul_threads_works m.A.r thread_count = .error .divByZero ∧
    mat_mul_threads m thread_count = .error .divByZero := by
  have hc : clamp_thread_count m.A.r thread_count = 0 := by
    unfold clamp_thread_count
    simp only
    split_ifs <;> omega
  have hw : mat_mul_threads_works m.A.r thread_count = .error .divByZero := by
    unfold mat_mul_threads_works
    simp only [hc]
    rfl
  refine ⟨hc, hw, ?_⟩
  unfold mat_mul_threads
  rw [hw]
  rfl

theorem product_independent_of_C (A B C₁ C₂ : Matrix α) (hr : C₁.r = C₂.r) (hc : C₁.c = C₂.c)
    (hrow : C₁.row = C₂.row) (hl : C₁.buf.length = C₂.buf.length) :
    (Mem.mk A B C₁).withRows (fun _ => true) (prod A B)
      = (Mem.mk A B C₂).withRows (fun _ => true) (prod A B) := by
  apply Mem.ext_buf
  · rfl
  · rfl
  · exact hr
  · exact hc
  · exact hrow
  · intro p
    show ((Mem.mk A B C₁).withBuf _).C.buf[p]? = ((Mem.mk A B C₂).withBuf _).C.buf[p]?
    rw [Mem.withBuf_get, Mem.withBuf_get]
    simp [hl, hc]

end AnyOrder

/-! ## Properties of the multipliers -/

section Claims
variable {α : Type} [Zero α] [Add α] [Mul α]

/-- C1: for well-shaped `A` (r x k), `B` (k x c), `C` (r x c) and a thread count
`1 <= t <= r`, `mat_mul_threads` builds its work items, and running `worker_mul`
once on each of them, in any order of the items, ends in exactly the memory
that `mat_mul_single` ends in; the element type is arbitrary, with no law
assumed of `0`, `+` and `*`. -/
theorem parallel_refines_single (m : Mem α) (t : Int) (hpre : m.Pre) (h1 : 1 ≤ t)
    (ht : t ≤ m.A.r) :
    ∃ ws m', mat_mul_threads_works m.A.r t = .ok ws ∧ mat_mul_single m = .ok m' ∧
      mat_mul_threads m t = .ok m' ∧
      ∀ ws', ws'.Perm ws → run_workers ws' m = .ok m' := by
  have hr : 1 ≤ m.A.r := le_trans h1 ht
  refine ⟨_, _, mat_mul_threads_works_ok m.A.r t hr, mat_mul_single_ok m hpre,
    mat_mul_threads_ok m hpre hr t, ?_⟩
  intro ws' hperm
  exact run_workers_perm m hpre _ (clamp_thread_count_bounds m.A.r t hr).1 ws' hperm

end Claims

/-- C2: for `total_rows >= 1` and a requested `thread_count >= 1`, every row index
of `[0, total_rows)` lies in the range of exactly one work item, no range holds
an index outside `[0, total_rows)`, and the sizes of any two ranges differ by
at most one. -/
theorem partition_exact_cover (total_rows thread_count : Int) (hr : 1 ≤ total_rows)
    (_ht : 1 ≤ thread_count) :
    ∃ ws, mat_mul_threads_works total_rows thread_count = .ok ws ∧
      (∀ i : Int, 0 ≤ i → i < total_rows →
        ∃! t : Nat, ∃ w, ws[t]? = some w ∧ w.row_start ≤ i ∧ i < w.row_end) ∧
      (∀ w ∈ ws, ∀ i : Int, w.row_start ≤ i → i < w.row_end → 0 ≤ i ∧ i < total_rows) ∧
      (∀ w₁ ∈ ws, ∀ w₂ ∈ ws,
        |(w₁.row_end - w₁.row_start) - (w₂.row_end - w₂.row_start)| ≤ 1) := by
  obtain ⟨hn1, _⟩ := clamp_thread_count_bounds total_rows thread_count hr
  refine ⟨_, mat_mul_threads_works_ok total_rows thread_count hr, ?_, ?_, ?_⟩
  · intro i h0 hi
    obtain ⟨t, ht, h1, h2⟩ := partitionOf_cover total_rows _ hn1 i h0 hi
    refine ⟨t, ⟨_, (partitionOf_get total_rows _ t _).mpr ⟨ht, rfl⟩, h1, h2⟩, ?_⟩
    rintro s ⟨w, hw, hs1, hs2⟩
    obtain ⟨_, rfl⟩ := (partitionOf_get total_rows _ s w).mp hw
    exact partitionOf_disjoint total_rows _ (by omega) hn1 s t i hs1 hs2 h1 h2
  · intro w hw i h1 h2
    obtain ⟨t, ht, rfl⟩ := (partitionOf_mem total_rows _ w).mp hw
    obtain ⟨b1, _, b3⟩ := partitionOf_bounds total_rows _ hn1 (by omega) t ht
    omega
  · intro w₁ hw₁ w₂ hw₂
    obtain ⟨s, _, rfl⟩ := (partitionOf_mem total_rows _ w₁).mp hw₁
    obtain ⟨t, _, rfl⟩ := (partitionOf_mem total_rows _ w₂).mp hw₂
    simp only [workOf]
    rw [abs_le]
    split_ifs <;> omega

/-- Witness of C2 at ten rows and three threads. -/
theorem partition_exact_cover_witness :
    ∃ ws, mat_mul_threads_works 10 3 = .ok ws ∧
      (∀ i : Int, 0 ≤ i → i < 10 →
        ∃! t : Nat, ∃ w, ws[t]? = some w ∧ w.row_start ≤ i ∧ i < w.row_end) ∧
      (∀ w ∈ ws, ∀ i : Int, w.row_start ≤ i → i < w.row_end → 0 ≤ i ∧ i < 10) ∧
      (∀ w₁ ∈ ws, ∀ w₂ ∈ ws,
        |(w₁.row_end - w₁.row_start) - (w₂.row_end - w₂.row_start)| ≤ 1) :=
  partition_exact_cover 10 3 (by decide) (by decide)

/-- C3: for `total_rows >= 1` and any requested `thread_count`, `mat_mul_threads`
builds exactly `n = min(max(thread_count, 1), total_rows)` work items; with
`base = total_rows / n` and `rem = total_rows % n` (C division), item `t` starts
at `t*base + min(t, rem)` and ends `base + 1` rows later when `t < rem` and
`base` rows later otherwise; item 0 starts at 0, every item starts where the
one before it ends, and the last item ends at `total_rows`. -/
theorem partition_closed_form (total_rows thread_count : Int) (hr : 1 ≤ total_rows) :
    ∃ ws, mat_mul_threads_works total_rows thread_count = .ok ws ∧
      (ws.length : Int) = min (max thread_count 1) total_rows ∧
      (∀ t : Nat, t < ws.length → ∃ w, ws[t]? = some w ∧
        w.row_start = (t : Int) * total_rows.tdiv (min (max thread_count 1) total_rows)
          + min (t : Int) (total_rows.tmod (min (max thread_count 1) total_rows)) ∧
        w.row_end = w.row_start + total_rows.tdiv (min (max thread_count 1) total_rows)
          + (if (t : Int) < total_rows.tmod (min (max thread_count 1) total_rows) then 1 else 0)) ∧
      (∃ w, ws[0]? = some w ∧ w.row_start = 0) ∧
      (∀ (t : Nat) (w w' : Work), ws[t]? = some w → ws[t + 1]? = some w' →
        w'.row_start = w.row_end) ∧
      (∃ w, ws.getLast? = some w ∧ w.row_end = total_rows) := by
  obtain ⟨hn1, hn2⟩ := clamp_thread_count_bounds total_rows thread_count hr
  rw [← clamp_thread_count_eq total_rows thread_count hr,
    Int.tdiv_eq_ediv (by omega) (by omega), Int.tmod_eq_emod (by omega) (by omega)]
  generalize hn : clamp_thread_count total_rows thread_count = n at *
  have hrem : 0 ≤ total_rows % n := Int.emod_nonneg total_rows (by omega)
  have hlen : (partitionOf total_rows n).length = n.toNat := by simp [partitionOf]
  refine ⟨partitionOf total_rows n, ?_, ?_, ?_, ?_, ?_, ?_⟩
  · rw [← hn]; exact mat_mul_threads_works_ok total_rows thread_count hr
  · rw [hlen]; omega
  · intro t ht
    rw [hlen] at ht
    refine ⟨_, (partitionOf_get total_rows n t _).mpr ⟨ht, rfl⟩, rfl, ?_⟩
    simp only [workOf]
    omega
  · refine ⟨_, (partitionOf_get total_rows n 0 _).mpr ⟨by omega, rfl⟩, ?_⟩
    exact startOf_zero _ _ hrem
  · intro t w w' hw hw'
    obtain ⟨_, rfl⟩ := (partitionOf_get total_rows n t w).mp hw
    obtain ⟨_, rfl⟩ := (partitionOf_get total_rows n (t + 1) w').mp hw'
    rw [workOf_end]; rfl
  · refine ⟨workOf (total_rows / n) (total_rows % n) (n.toNat - 1), ?_, ?_⟩
    · rw [List.getLast?_eq_getElem?, hlen]
      exact (partitionOf_get total_rows n _ _).mpr ⟨by omega, rfl⟩
    · rw [workOf_end]
      have : n.toNat - 1 + 1 = n.toNat := by omega
      rw [this, startOf_total total_rows n hn1]

section Claims2
variable {α : Type} [Zero α] [Add α] [Mul α]

/-- C5: for well-shaped `A` (r x n), `B` (n x c), `C` (r x c), `mat_mul_single`
returns, and afterwards every `C[i][k]` with `i < r`, `k < c` is the
left-to-right sum `((0 + A[i][0]*B[0][k]) + A[i][1]*B[1][k]) + ...` over
`j = 0 .. n-1`, where `A[i][j]` and `B[j][k]` are the values read from the
operands; `A`, `B` and the dimensions of `C` are as before the call. -/
theorem mat_mul_single_spec (m : Mem α) (hpre : m.Pre) :
    ∃ m', mat_mul_single m = .ok m' ∧ m'.A = m.A ∧ m'.B = m.B ∧
      m'.C.r = m.C.r ∧ m'.C.c = m.C.c ∧
      (∀ i j : Nat, (i : Int) < m.A.r → (j : Int) < m.A.c →
        m.A.get i j = .ok (m.A.entry i j)) ∧
      (∀ j k : Nat, (j : Int) < m.B.r → (k : Int) < m.B.c →
        m.B.get j k = .ok (m.B.entry j k)) ∧
      (∀ i k : Nat, (i : Int) < m.A.r → (k : Int) < m.B.c →
        m'.C.get i k = .ok ((List.range m.A.c.toNat).foldl
          (fun s j => s + m.A.entry i j * m.B.entry j k) 0)) := by
  have hentry : ∀ (M : Matrix α), M.WF → ∀ i j : Nat, (i : Int) < M.r → (j : Int) < M.c →
      M.get i j = .ok (M.entry i j) := by
    intro M hM i j hi hj
    exact Matrix.get_ok M hM i j (by omega) (by omega)
  refine ⟨_, mat_mul_single_ok m hpre, rfl, rfl, rfl, rfl, hentry m.A hpre.1,
    hentry m.B hpre.2.1, ?_⟩
  intro i k hi hk
  obtain ⟨hA, hB, hC, hAB, hCA, hCB⟩ := hpre
  rw [Mem.withRows_get_own m hC _ _ i k (by omega) (by omega) rfl, prod, acc_eq_foldl]

end Claims2

/-- C9: over exact rationals, equal mean times `d > 0` give a speedup of exactly 1
and an improvement of exactly 0, and the division is done exactly when the
parallel mean time is positive. -/
theorem equal_times_no_improvement (d : ℚ) (hd : 0 < d) :
    speedup_report d d = some (1, 0) ∧
    ∀ t_single t_multi : ℚ,
      ((speedup_report t_single t_multi).isSome = true ↔ 0 < t_multi) ∧
      (0 < t_multi → speedup_report t_single t_multi
        = some (t_single / t_multi, (t_single / t_multi - 1) * 100)) := by
  constructor
  · simp [speedup_report, hd, div_self (ne_of_gt hd)]
  · intro ts tm
    constructor
    · by_cases h : 0 < tm <;> simp [speedup_report, h]
    · intro h
      simp [speedup_report, h]

/-- Witness of C9 at a mean time of 3/2 seconds. -/
theorem equal_times_no_improvement_witness :
    (0 : ℚ) < 3 / 2 ∧ speedup_report (3 / 2) (3 / 2) = some (1, 0) :=
  ⟨by norm_num, (equal_times_no_improvement (3 / 2) (by norm_num)).1⟩
theorem scenario_pre (a b c d : Int) :
    (scenarioMem a b c d).Pre := by
  simp [Mem.Pre, Matrix.WF, scenarioMem, scenarioA, scenarioB, scenarioC]
  decide

theorem scenario_product (a b c d : Int) :
    (scenarioMem a b c d).withRows (fun _ => true)
        (prod (scenarioMem a b c d).A (scenarioMem a b c d).B)
      = scenarioMem 58 64 139 154 := by
  simp [Mem.withRows, Mem.withBuf, scenarioMem, scenarioC]
  decide

/-- C6: for `A = [[1,2,3],[4,5,6]]` and `B = [[7,8],[9,10],[11,12]]`, whatever the
2x2 output matrix held before, `mat_mul_single`, `mat_mul_threads` with
`thread_count` 1 and with `thread_count` 2, and the two work items of the
latter run in the opposite order, all leave `C = [[58,64],[139,154]]`. -/
theorem scenario_2x3_3x2 (a b c d : Int) :
    mat_mul_single (scenarioMem a b c d)
      = .ok (scenarioMem 58 64 139 154) ∧
    mat_mul_threads (scenarioMem a b c d) 1
      = .ok (scenarioMem 58 64 139 154) ∧
    mat_mul_threads (scenarioMem a b c d) 2
      = .ok (scenarioMem 58 64 139 154) ∧
    mat_mul_threads_works 2 2
      = .ok [{ row_start := 0, row_end := 1 }, { row_start := 1, row_end := 2 }] ∧
    run_workers [{ row_start := 1, row_end := 2 }, { row_start := 0, row_end := 1 }]
        (scenarioMem a b c d)
      = .ok (scenarioMem 58 64 139 154) := by
  have hpre := scenario_pre a b c d
  have hA : (scenarioMem a b c d).A.r = 2 := rfl
  have hr : (1 : Int) ≤ (scenarioMem a b c d).A.r := by
    rw [hA]; decide
  refine ⟨?_, ?_, ?_, ?_, ?_⟩
  · rw [mat_mul_single_ok _ hpre, scenario_product]
  · rw [mat_mul_threads_ok _ hpre hr, scenario_product]
  · rw [mat_mul_threads_ok _ hpre hr, scenario_product]
  · rw [mat_mul_threads_works_ok 2 2 (by decide)]; exact congrArg Except.ok (by decide)
  · rw [run_workers_perm _ hpre 2 (by decide) _ (by
      rw [hA]
      have : partitionOf 2 2 = [{ row_start := 0, row_end := 1 }, { row_start := 1, row_end := 2 }] := by
        decide
      rw [this]
      exact List.Perm.swap _ _ _), scenario_product]

section Claims3
variable {α : Type} [Zero α] [Add α] [Mul α]

/-- C7: for well-shaped operands and any thread count, the output of
`mat_mul_single` and of `mat_mul_threads` does not depend on what `C` held
before: two initial contents `C₁`, `C₂` give the same `C'`, and a second run
started on `C'` leaves `C'`.  (`mat_mul_threads` needs `A.r >= 1` to return;
with `A.r = 0` both runs end in the same fault.) -/
theorem multiply_idempotent (A B C₁ C₂ : Matrix α) (thread_count : Int)
    (h₁ : (Mem.mk A B C₁).Pre) (h₂ : (Mem.mk A B C₂).Pre) :
    (∃ C', mat_mul_single (Mem.mk A B C₁) = .ok (Mem.mk A B C') ∧
      mat_mul_single (Mem.mk A B C₂) = .ok (Mem.mk A B C') ∧
      mat_mul_single (Mem.mk A B C') = .ok (Mem.mk A B C')) ∧
    mat_mul_threads (Mem.mk A B C₁) thread_count = mat_mul_threads (Mem.mk A B C₂) thread_count ∧
    (1 ≤ A.r →
      ∃ C', mat_mul_threads (Mem.mk A B C₁) thread_count = .ok (Mem.mk A B C') ∧
        mat_mul_threads (Mem.mk A B C₂) thread_count = .ok (Mem.mk A B C') ∧
        mat_mul_threads (Mem.mk A B C') thread_count = .ok (Mem.mk A B C')) := by
  have hr : C₁.r = C₂.r := h₁.2.2.2.2.1.trans h₂.2.2.2.2.1.symm
  have hc : C₁.c = C₂.c := h₁.2.2.2.2.2.trans h₂.2.2.2.2.2.symm
  have hrow : C₁.row = C₂.row := by
    rw [h₁.2.2.1.2.2.2, h₂.2.2.1.2.2.2, hr, hc]
  have hl : C₁.buf.length = C₂.buf.length := by
    rw [h₁.2.2.1.2.2.1, h₂.2.2.1.2.2.1, hr, hc]
  have heq := product_independent_of_C A B C₁ C₂ hr hc hrow hl
  have hpre' := Mem.withRows_pre (Mem.mk A B C₁) h₁ (fun _ => true) (prod A B)
  have hagain : ((Mem.mk A B C₁).withRows (fun _ => true) (prod A B)).withRows
      (fun _ => true) (prod A B) = (Mem.mk A B C₁).withRows (fun _ => true) (prod A B) := by
    rw [Mem.withRows_withRows]
    exact Mem.withRows_congr _ h₁.2.2.1 _ _ _ (fun _ _ => rfl)
  have hshape : (Mem.mk A B C₁).withRows (fun _ => true) (prod A B)
      = Mem.mk A B ((Mem.mk A B C₁).withRows (fun _ => true) (prod A B)).C := rfl
  refine ⟨⟨((Mem.mk A B C₁).withRows (fun _ => true) (prod A B)).C, ?_, ?_, ?_⟩, ?_, ?_⟩
  · rw [mat_mul_single_ok _ h₁]; rfl
  · rw [mat_mul_single_ok _ h₂, ← heq]; rfl
  · rw [← hshape, mat_mul_single_ok _ hpre']
    exact congrArg Except.ok hagain
  · rcases Int.lt_or_le 0 A.r with hpos | hle
    · rw [mat_mul_threads_ok _ h₁ hpos, mat_mul_threads_ok _ h₂ hpos]
      exact congrArg Except.ok heq
    · have hz : A.r = 0 := le_antisymm hle h₁.1.1
      rw [(mat_mul_threads_zero_rows (Mem.mk A B C₁) hz thread_count).2.2,
        (mat_mul_threads_zero_rows (Mem.mk A B C₂) hz thread_count).2.2]
  · intro hpos
    refine ⟨((Mem.mk A B C₁).withRows (fun _ => true) (prod A B)).C, ?_, ?_, ?_⟩
    · rw [mat_mul_threads_ok _ h₁ hpos]; rfl
    · rw [mat_mul_threads_ok _ h₂ hpos, ← heq]; rfl
    · rw [← hshape, mat_mul_threads_ok _ hpre' hpos]
      exact congrArg Except.ok hagain

/-- C10: on well-shaped matrices with `A.c == B.r`, `C.r == A.r`, `C.c == B.c`:
when `A.r >= 1`, for every requested thread count the divisor after clamping
is at least 1, every work item satisfies `0 <= row_start <= row_end <= A.r`,
and `mat_mul_threads` (and its work items run in any order) returns without a
division or an index fault; when `A.r == 0` the clamp gives 0 and the call
ends in the division fault. -/
theorem mat_mul_threads_safe (m : Mem α) (thread_count : Int) (hpre : m.Pre) :
    (1 ≤ m.A.r →
      1 ≤ clamp_thread_count m.A.r thread_count ∧
      ∃ ws, mat_mul_threads_works m.A.r thread_count = .ok ws ∧
        (∀ w ∈ ws, 0 ≤ w.row_start ∧ w.row_start ≤ w.row_end ∧ w.row_end ≤ m.A.r) ∧
        (∀ ws', ws'.Perm ws → ∃ m', run_workers ws' m = .ok m') ∧
        ∃ m', mat_mul_threads m thread_count = .ok m') ∧
    (m.A.r = 0 →
      clamp_thread_count m.A.r thread_count = 0 ∧
      mat_mul_threads m thread_count = .error .divByZero) := by
  constructor
  · intro hr
    obtain ⟨hn1, _⟩ := clamp_thread_count_bounds m.A.r thread_count hr
    refine ⟨hn1, _, mat_mul_threads_works_ok m.A.r thread_count hr, ?_, ?_, ?_⟩
    · intro w hw
      obtain ⟨t, ht, rfl⟩ := (partitionOf_mem m.A.r _ w).mp hw
      exact partitionOf_bounds m.A.r _ hn1 (by omega) t ht
    · intro ws' hperm
      exact ⟨_, run_workers_perm m hpre _ hn1 ws' hperm⟩
    · exact ⟨_, mat_mul_threads_ok m hpre hr thread_count⟩
  · intro hz
    exact ⟨(mat_mul_threads_zero_rows m hz thread_count).1,
      (mat_mul_threads_zero_rows m hz thread_count).2.2⟩

end Claims3

/-- Witness of C1 on the 2x3 by 3x2 scenario with two threads. -/
theorem parallel_refines_single_witness :
    (scenarioMem 0 0 0 0).Pre ∧ (1 : Int) ≤ 2 ∧ (2 : Int) ≤ (scenarioMem 0 0 0 0).A.r ∧
    ∃ ws m', mat_mul_threads_works (scenarioMem 0 0 0 0).A.r 2 = .ok ws ∧
      mat_mul_single (scenarioMem 0 0 0 0) = .ok m' ∧
      mat_mul_threads (scenarioMem 0 0 0 0) 2 = .ok m' ∧
      ∀ ws', ws'.Perm ws → run_workers ws' (scenarioMem 0 0 0 0) = .ok m' :=
  ⟨by decide, by decide, by decide,
    parallel_refines_single (scenarioMem 0 0 0 0) 2 (by decide) (by decide) (by decide)⟩

/-- Witness of C3 at ten rows and three threads. -/
theorem partition_closed_form_witness :
    (1 : Int) ≤ 10 ∧
    ∃ ws, mat_mul_threads_works 10 3 = .ok ws ∧ (ws.length : Int) = min (max 3 1) 10 :=
  ⟨by decide, (partition_closed_form 10 3 (by decide)).imp (fun _ h => ⟨h.1, h.2.1⟩)⟩

/-- Witness of C5 on the 2x3 by 3x2 scenario. -/
theorem mat_mul_single_spec_witness :
    (scenarioMem 0 0 0 0).Pre ∧
    ∃ m', mat_mul_single (scenarioMem 0 0 0 0) = .ok m' ∧ m'.A = scenarioA ∧ m'.B = scenarioB :=
  ⟨by decide, (mat_mul_single_spec (scenarioMem 0 0 0 0) (by decide)).imp
    (fun _ h => ⟨h.1, h.2.1, h.2.2.1⟩)⟩

/-- Witness of C7 on the 2x3 by 3x2 scenario, from two different initial outputs. -/
theorem multiply_idempotent_witness :
    (Mem.mk scenarioA scenarioB (scenarioC 0 0 0 0)).Pre ∧
    (Mem.mk scenarioA scenarioB (scenarioC 1 2 3 4)).Pre ∧
    mat_mul_threads (Mem.mk scenarioA scenarioB (scenarioC 0 0 0 0)) 2
      = mat_mul_threads (Mem.mk scenarioA scenarioB (scenarioC 1 2 3 4)) 2 :=
  ⟨by decide, by decide,
    (multiply_idempotent scenarioA scenarioB (scenarioC 0 0 0 0) (scenarioC 1 2 3 4) 2
      (by decide) (by decide)).2.1⟩

/-- Witness of C10: five requested threads on the 2x3 by 3x2 scenario, and on
matrices without rows. -/
theorem mat_mul_threads_safe_witness :
    (scenarioMem 0 0 0 0).Pre ∧ (∃ m', mat_mul_threads (scenarioMem 0 0 0 0) 5 = .ok m') ∧
    emptyMem.Pre ∧ mat_mul_threads emptyMem 5 = .error .divByZero :=
  ⟨by decide, ((mat_mul_threads_safe (scenarioMem 0 0 0 0) 5 (by decide)).1 (by decide)).2.imp
      (fun _ h => h.2.2.2) |>.elim (fun _ h => h),
    by decide, ((mat_mul_threads_safe emptyMem 5 (by decide)).2 rfl).2⟩

end MatMul
